import Mathlib

/-!
Verification of the mask-generation pipeline in `dipy/segment/mask.py`.

The numeric samples of arrays are modelled as exact rationals.  The special
floating-point value NaN, which arises in `otsu` through `0/0` divisions,
is modelled by `Option ℚ` (`none` = NaN); every arithmetic operation
propagates `none`, matching IEEE NaN propagation for the operations used.
Machine rounding of binary floats is not modelled: all arithmetic is exact.
-/

set_option autoImplicit false
set_option maxRecDepth 100000

attribute [local semireducible] Rat.mul Rat.inv Rat.add Rat.sub

/-! ### Rational list utilities mirroring the numpy primitives used -/

/-- Model of `a.min()` for a flattened array.  Only used on nonempty lists
(`np.histogram` guards emptiness separately). -/
def listMin : List ℚ → ℚ
  | [] => 0
  | x :: xs => xs.foldl min x

/-- Model of `a.max()` for a flattened array. -/
def listMax : List ℚ → ℚ
  | [] => 0
  | x :: xs => xs.foldl max x

/-- Running-sum worker for `np.cumsum`. -/
def cumsumFrom (acc : ℚ) : List ℚ → List ℚ
  | [] => []
  | x :: xs => (acc + x) :: cumsumFrom (acc + x) xs

/-- Model of `np.cumsum` on a 1-D float array. -/
def cumsum (l : List ℚ) : List ℚ := cumsumFrom 0 l

/-- Float division producing NaN (`none`) on a zero denominator, as in
`mean1 = np.cumsum(hist * bin_centers[1:]) / weight1` when a prefix weight
is zero. -/
def ndiv (a b : ℚ) : Option ℚ := if b = 0 then none else some (a / b)

/-- NaN-propagating subtraction. -/
def msub : Option ℚ → Option ℚ → Option ℚ
  | some a, some b => some (a - b)
  | _, _ => none

/-- Scan worker of `np.argmax`: `i` is the index of the head of the remaining
list, `bi`/`bv` the index and value of the current best.  numpy keeps the
first maximum on ties (strict `>` comparison). -/
def argmaxGo : List ℚ → ℕ → ℕ → ℚ → ℕ
  | [], _, bi, _ => bi
  | x :: xs, i, bi, bv => if bv < x then argmaxGo xs (i + 1) i x else argmaxGo xs (i + 1) bi bv

/-- Model of `np.argmax` on a NaN-free 1-D array: index of the first maximal
entry. -/
def argmaxQ : List ℚ → ℕ
  | [] => 0
  | x :: xs => argmaxGo xs 1 0 x

/-- Model of `np.argmax` on a float array that may hold NaN: numpy returns
the index of the first NaN when one is present, otherwise the index of the
first maximum. -/
def npArgmax (l : List (Option ℚ)) : ℕ :=
  match l.findIdx? (fun o => o.isNone) with
  | some i => i
  | none => argmaxQ (l.map (fun o => o.getD 0))

/-! ### The Otsu thresholder (`otsu`, mask.py lines 87-123)

`hist, bin_centers = np.histogram(image, nbins)` returns the per-bin counts
and the `nbins + 1` bin EDGES (despite the misleading variable name).  The
histogram range is `(a.min(), a.max())`, widened to `(m - 0.5, m + 0.5)`
when all samples equal `m`, and `(0, 1)` for an empty array. -/

/-- Lower end of the `np.histogram` range. -/
def histLo (image : List ℚ) : ℚ :=
  if image.isEmpty then 0
  else if listMin image = listMax image then listMin image - 1/2 else listMin image

/-- Upper end of the `np.histogram` range. -/
def histHi (image : List ℚ) : ℚ :=
  if image.isEmpty then 1
  else if listMin image = listMax image then listMax image + 1/2 else listMax image

/-- The `nbins + 1` bin edges of `np.histogram` (equal-width bins). -/
def binEdges (image : List ℚ) (nbins : ℕ) : List ℚ :=
  (List.range (nbins + 1)).map
    (fun i : ℕ => histLo image + (i : ℚ) * (histHi image - histLo image) / nbins)

/-- The bin a sample of the range falls into: bins are left-closed and
right-open, except that the last bin also contains the upper range end. -/
def binOf (image : List ℚ) (nbins : ℕ) (x : ℚ) : ℕ :=
  min (Int.toNat ⌊(x - histLo image) * nbins / (histHi image - histLo image)⌋) (nbins - 1)

/-- Per-bin counts of `np.histogram`, already cast to float
(`hist = hist.astype(float)`, line 106). -/
def hist (image : List ℚ) (nbins : ℕ) : List ℚ :=
  (List.range nbins).map
    (fun j => ((image.filter (fun x => binOf image nbins x == j)).length : ℚ))

/-- `weight1 = np.cumsum(hist)` (line 109). -/
def weight1 (image : List ℚ) (nbins : ℕ) : List ℚ := cumsum (hist image nbins)

/-- `weight2 = np.cumsum(hist[::-1])[::-1]` (line 110). -/
def weight2 (image : List ℚ) (nbins : ℕ) : List ℚ :=
  (cumsum (hist image nbins).reverse).reverse

/-- The elementwise products `hist * bin_centers[1:]` (the UPPER edge of each
bin, since the second return of `np.histogram` holds edges). -/
def prods (image : List ℚ) (nbins : ℕ) : List ℚ :=
  List.zipWith (· * ·) (hist image nbins) (binEdges image nbins).tail

/-- `mean1 = np.cumsum(hist * bin_centers[1:]) / weight1` (line 113). -/
def mean1 (image : List ℚ) (nbins : ℕ) : List (Option ℚ) :=
  List.zipWith ndiv (cumsum (prods image nbins)) (weight1 image nbins)

/-- `mean2 = (np.cumsum((hist * bin_centers[1:])[::-1]) / weight2[::-1])[::-1]`
(line 114). -/
def mean2 (image : List ℚ) (nbins : ℕ) : List (Option ℚ) :=
  (List.zipWith ndiv (cumsum (prods image nbins).reverse)
    (weight2 image nbins).reverse).reverse

/-- `variance12 = weight1[:-1] * weight2[1:] * (mean1[:-1] - mean2[1:])**2`
(line 119). -/
def variance12 (image : List ℚ) (nbins : ℕ) : List (Option ℚ) :=
  List.zipWith (fun w d => d.map (fun t => w * t ^ 2))
    (List.zipWith (· * ·) (weight1 image nbins).dropLast (weight2 image nbins).tail)
    (List.zipWith msub (mean1 image nbins).dropLast (mean2 image nbins).tail)

/-- `otsu(image, nbins)` (lines 87-123): `idx = np.argmax(variance12);
threshold = bin_centers[:-1][idx]`.  `np.argmax` raises on an empty array
(`nbins < 2`), modelled as `none`. -/
def otsu (image : List ℚ) (nbins : ℕ) : Option ℚ :=
  if variance12 image nbins = [] then none
  else some (((binEdges image nbins).dropLast).getD (npArgmax (variance12 image nbins)) 0)

/-! ### Spec-side definitions for the Otsu claim (C1)

These follow the WORDING of the spec (section 4.2): cumulative bin-count
sums as class weights, cumulative weighted bin-CENTER means, between-class
variance `w1 * w2 * (mu1 - mu2)^2`, first maximizer on ties, bin-center
return value.  They are compared against the faithful `otsu` above. -/

/-- Center of bin `j`, midway between its two edges. -/
def binCenters (image : List ℚ) (nbins : ℕ) : List ℚ :=
  (List.range nbins).map
    (fun j => ((binEdges image nbins).getD j 0 + (binEdges image nbins).getD (j + 1) 0) / 2)

/-- Count of bin `j` as a plain function. -/
def histAt (image : List ℚ) (nbins : ℕ) (j : ℕ) : ℚ := (hist image nbins).getD j 0

/-- Center of bin `j` as a plain function. -/
def centerAt (image : List ℚ) (nbins : ℕ) (j : ℕ) : ℚ := (binCenters image nbins).getD j 0

/-- Spec: weight of the lower class at split `i` (bins `0..i`). -/
def specW1 (image : List ℚ) (nbins : ℕ) (i : ℕ) : ℚ :=
  ∑ j ∈ Finset.range (i + 1), histAt image nbins j

/-- Spec: weight of the upper class from bin `i` on (bins `i..nbins-1`). -/
def specW2 (image : List ℚ) (nbins : ℕ) (i : ℕ) : ℚ :=
  ∑ j ∈ Finset.Ico i nbins, histAt image nbins j

/-- Spec: cumulative weighted bin-center mean of the lower class. -/
def specMu1 (image : List ℚ) (nbins : ℕ) (i : ℕ) : ℚ :=
  (∑ j ∈ Finset.range (i + 1), histAt image nbins j * centerAt image nbins j) /
    specW1 image nbins i

/-- Spec: cumulative weighted bin-center mean of the upper class. -/
def specMu2 (image : List ℚ) (nbins : ℕ) (i : ℕ) : ℚ :=
  (∑ j ∈ Finset.Ico i nbins, histAt image nbins j * centerAt image nbins j) /
    specW2 image nbins i

/-- Spec: between-class variance of the split putting bins `0..i` below and
`i+1..nbins-1` above. -/
def specVariance (image : List ℚ) (nbins : ℕ) (i : ℕ) : ℚ :=
  specW1 image nbins i * specW2 image nbins (i + 1) *
    (specMu1 image nbins i - specMu2 image nbins (i + 1)) ^ 2

/-- Spec: the list of between-class variances over all candidate splits. -/
def specVarianceList (image : List ℚ) (nbins : ℕ) : List ℚ :=
  (List.range (nbins - 1)).map (specVariance image nbins)

/-- `i` is the first index attaining the maximum of `l`. -/
def IsFirstMax (l : List ℚ) (i : ℕ) : Prop :=
  i < l.length ∧ (∀ j, j < l.length → l.getD j 0 ≤ l.getD i 0) ∧
    (∀ j, j < i → l.getD j 0 < l.getD i 0)

/-- Following the spec wording to the letter: an Otsu thresholder that
returns the bin-CENTER intensity at the maximizing split.  Used to compare
the claim against the code. -/
def otsuSpecCenters (image : List ℚ) (nbins : ℕ) : Option ℚ :=
  if specVarianceList image nbins = [] then none
  else some ((binCenters image nbins).getD (argmaxQ (specVarianceList image nbins)) 0)

/-! ### N-dimensional arrays -/

/-- A dense N-dimensional numpy array: a shape and the sample stored at each
index list.  Only index lists `idx` with `idx.length = shape.length` and
`idx[d] < shape[d]` are meaningful; the model is faithful on those. -/
structure NDArr where
  shape : List ℕ
  data : List ℕ → ℚ

/-- All in-bounds index lists of a shape, in C order (row-major), the order
in which `np.where` and `np.nditer` enumerate positions. -/
def indices : List ℕ → List (List ℕ)
  | [] => [[]]
  | d :: rest => (List.range d).flatMap (fun i => (indices rest).map (fun t => i :: t))

/-- `a.ravel()`: the samples in C order, the order `np.histogram` consumes. -/
def flatten (v : NDArr) : List ℚ := (indices v.shape).map v.data

/-- The positions returned by `np.array(np.where(vol != 0)).T` (mask.py line
205): all in-bounds indices holding a nonzero sample, in C order. -/
def nonzeroIndices (v : NDArr) : List (List ℕ) :=
  (indices v.shape).filter (fun idx => decide (v.data idx ≠ 0))

/-! ### Binary thresholding (`binary_threshold` and `maxvalue`, lines 152-187) -/

/-- `np.iinfo(datatype.type).max` for the integer dtype kinds `iu` handled by
`maxvalue` (lines 184-185): `bits`-bit signed or unsigned integers.  The
float branch (`np.finfo`) is analogous and not needed by the claims. -/
def maxvalue (signed : Bool) (bits : ℕ) : ℤ :=
  if signed then 2 ^ (bits - 1) - 1 else 2 ^ bits - 1

/-- The effect of lines 167-168 on one sample: first every sample strictly
above the threshold is set to `maxval`, THEN every sample now at most the
threshold is set to `0` (the second `np.where` sees the updated buffer). -/
def threshStep (maxval thresh x : ℚ) : ℚ :=
  let x1 := if thresh < x then maxval else x
  if x1 ≤ thresh then 0 else x1

/-- `binary_threshold(vol, thresh)` (lines 152-168).  The `np.nditer` loop
applies the two masked assignments to every sample of the volume in place;
the Fortran-order chunked traversal has no observable effect because the
update is elementwise. -/
def binary_threshold (vol : NDArr) (thresh maxval : ℚ) : NDArr :=
  ⟨vol.shape, fun idx => threshStep maxval thresh (vol.data idx)⟩

/-! ### Mask application (`applymask`, lines 126-149) -/

/-- The error message of line 139 (apostrophe and spelling normalised). -/
def applymaskMsg : String := "applymask: The masks dimensionality is bigger than the inputs"

/-- The `else` branch (lines 146-149): `outliers = np.where(mask == 0);
vol[outliers] = 0`.  When the mask has fewer dimensions than the volume the
tuple of index arrays indexes only the LEADING axes, so numpy zeroes the
whole trailing subarray at every position where the mask is zero.  Faithful
whenever the shape of the mask is a prefix of the shape of the volume
(otherwise the in-place assignment would raise an IndexError, and no claim
concerns that case). -/
def applymaskCore (vol mask : NDArr) : NDArr :=
  ⟨vol.shape, fun idx => if mask.data (idx.take mask.shape.length) = 0 then 0 else vol.data idx⟩

/-- `applymask(vol, mask)` (lines 126-149).  Note the source `elif` on line
141 repeats the `if` condition of line 138 verbatim, so it is dead code: the
recursion it suggests never runs, and every `mask` with at most as many
dimensions as `vol` is handled by the `else` branch above. -/
def applymask (vol mask : NDArr) : Except String NDArr :=
  if mask.shape.length > vol.shape.length then Except.error applymaskMsg
  else Except.ok (applymaskCore vol mask)

/-! ### Bounding box (`bounding_box`, lines 189-225) -/

/-- One pass of the per-dimension update loop of lines 215-221: componentwise
minimum and maximum against one nonzero position. -/
def bbStep (mm : List ℕ × List ℕ) (pt : List ℕ) : List ℕ × List ℕ :=
  (List.zipWith min mm.1 pt, List.zipWith max mm.2 pt)

/-- `bounding_box(vol)` (lines 189-225).  With no nonzero voxel it returns
the HARDCODED pair `([0,0,0], [0,0,0])` (line 209) whatever the number of
dimensions; otherwise it folds the min/max update over all nonzero
positions, starting from the first one. -/
def bounding_box (vol : NDArr) : List ℕ × List ℕ :=
  match nonzeroIndices vol with
  | [] => ([0, 0, 0], [0, 0, 0])
  | p0 :: rest => (p0 :: rest).foldl bbStep (p0, p0)

/-- Whether the call prints `WARNING: Not data found in volume to bound.`
(line 208): exactly when no nonzero voxel exists. -/
def bounding_box_warning (vol : NDArr) : Bool := (nonzeroIndices vol).isEmpty

/-! ### Cropping (`crop`, lines 227-245) -/

/-- Effective start of the Python slice `m : x+1` on an axis of extent `s`:
slicing never raises, a too-large start is clamped to `s`. -/
def cropStart (s m : ℕ) : ℕ := min m s

/-- Effective stop of the Python slice `m : x+1` on an axis of extent `s`:
a stop beyond the extent is silently clamped to `s`. -/
def cropStop (s x : ℕ) : ℕ := min (x + 1) s

/-- `crop(vol, mins, maxs)` (lines 227-245):
`vol[mins[0]:maxs[0]+1, mins[1]:maxs[1]+1, mins[2]:maxs[2]+1]`.  The three
slices address the first three axes (the documented 3-D use); any trailing
axes are kept whole.  Python slice semantics make this total: out-of-range
bounds are clamped, never an error.  Negative indices cannot arise here
because bounds are naturals. -/
def crop (vol : NDArr) (mins maxs : List ℕ) : NDArr :=
  let s0 := vol.shape.getD 0 0
  let s1 := vol.shape.getD 1 0
  let s2 := vol.shape.getD 2 0
  let a0 := cropStart s0 (mins.getD 0 0)
  let a1 := cropStart s1 (mins.getD 1 0)
  let a2 := cropStart s2 (mins.getD 2 0)
  let b0 := cropStop s0 (maxs.getD 0 0)
  let b1 := cropStop s1 (maxs.getD 1 0)
  let b2 := cropStop s2 (maxs.getD 2 0)
  ⟨[b0 - a0, b1 - a1, b2 - a2] ++ vol.shape.drop 3,
   fun idx => vol.data ([a0 + idx.getD 0 0, a1 + idx.getD 1 0, a2 + idx.getD 2 0] ++ idx.drop 3)⟩

/-! ### The pipeline (`medotsu` and `multi_median`, lines 6-85) -/

/-- `multi_median(input, median_radius, numpass)` (lines 59-85): `numpass`
in-place applications of the EXTERNAL scipy median-filter primitive (spec
section 6), here abstracted as `medfilt` with the window size baked in.
The `outvol` allocation of line 76 is dead code. -/
def multi_median (medfilt : NDArr → NDArr) (input : NDArr) (numpass : ℕ) : NDArr :=
  medfilt^[numpass] input

/-- What the buffer of the caller holds after `applymask` wrote through the
VIEW produced by `crop(input_volume, mins, maxs)` (line 51): positions
inside the slice box receive the masked values, positions outside keep
their original samples. -/
def writeBack (orig : NDArr) (mins maxs : List ℕ) (r : NDArr) : NDArr :=
  let s0 := orig.shape.getD 0 0
  let s1 := orig.shape.getD 1 0
  let s2 := orig.shape.getD 2 0
  let a0 := cropStart s0 (mins.getD 0 0)
  let a1 := cropStart s1 (mins.getD 1 0)
  let a2 := cropStart s2 (mins.getD 2 0)
  let b0 := cropStop s0 (maxs.getD 0 0)
  let b1 := cropStop s1 (maxs.getD 1 0)
  let b2 := cropStop s2 (maxs.getD 2 0)
  ⟨orig.shape, fun idx =>
    if a0 ≤ idx.getD 0 0 ∧ idx.getD 0 0 < b0 ∧ a1 ≤ idx.getD 1 0 ∧ idx.getD 1 0 < b1 ∧
        a2 ≤ idx.getD 2 0 ∧ idx.getD 2 0 < b2 then
      r.data [idx.getD 0 0 - a0, idx.getD 1 0 - a1, idx.getD 2 0 - a2]
    else orig.data idx⟩

/-- `medotsu(input_volume, median_radius, numpass, autocrop)` (lines 6-56).
Returns `(returned volume, returned mask, caller buffer after the call)`.
Line 40 copies the input; `multi_median` and `binary_threshold` then mutate
only that private copy.  Line 54 `applymask(input_volume, mask)` however
writes IN PLACE into `input_volume` itself: directly when `autocrop` is
off, and through the slice view of line 51 when it is on, which the third
component records.  `maxval` abstracts `maxvalue(vol.dtype)`; `none` models
a raised exception of a numpy primitive. -/
def medotsu (medfilt : NDArr → NDArr) (maxval : ℚ) (input_volume : NDArr)
    (numpass : ℕ) (autocrop : Bool) : Option (NDArr × NDArr × NDArr) :=
  let mask0 := multi_median medfilt input_volume numpass
  match otsu (flatten mask0) 256 with
  | none => none
  | some thresh =>
    let mask := binary_threshold mask0 thresh maxval
    if autocrop then
      let mm := bounding_box mask
      let maskC := crop mask mm.1 mm.2
      let volC := crop input_volume mm.1 mm.2
      match applymask volC maskC with
      | Except.error _ => none
      | Except.ok ret => some (ret, maskC, writeBack input_volume mm.1 mm.2 ret)
    else
      match applymask input_volume mask with
      | Except.error _ => none
      | Except.ok ret => some (ret, mask, ret)

/-! ### Concrete arrays used by witnesses and counterexamples -/

/-- A concrete 1 x 1 x 3 volume with samples 0, 2, 256. -/
def c4input : NDArr :=
  ⟨[1, 1, 3], fun idx => if idx = [0, 0, 1] then 2 else if idx = [0, 0, 2] then 256 else 0⟩

/-- A concrete 2 x 2 x 2 array with pairwise distinct nonzero samples. -/
def cvol : NDArr :=
  ⟨[2, 2, 2], fun idx => ((idx.getD 0 0 * 4 + idx.getD 1 0 * 2 + idx.getD 2 0 + 1 : ℕ) : ℚ)⟩

/-- A concrete 3 x 3 x 3 mask with nonzero voxels at `[1,1,2]` and `[2,1,1]`. -/
def c9mask : NDArr :=
  ⟨[3, 3, 3], fun idx => if idx = [1, 1, 2] then 1 else if idx = [2, 1, 1] then 1 else 0⟩

/-! ### List-level lemmas -/

theorem cumsumFrom_length (l : List ℚ) : ∀ acc : ℚ, (cumsumFrom acc l).length = l.length := by
  induction l with
  | nil => intro acc; rfl
  | cons x xs ih => intro acc; simp [cumsumFrom, ih]

theorem cumsum_length (l : List ℚ) : (cumsum l).length = l.length := cumsumFrom_length l 0

theorem sum_range_getD_cons (x : ℚ) (xs : List ℚ) (m : ℕ) :
    ∑ j ∈ Finset.range (m + 1), (x :: xs).getD j 0 = x + ∑ j ∈ Finset.range m, xs.getD j 0 := by
  rw [Finset.sum_range_succ']
  simp only [List.getD_cons_succ, List.getD_cons_zero]
  exact add_comm _ _

theorem cumsumFrom_getD (l : List ℚ) :
    ∀ (acc : ℚ) (i : ℕ), i < l.length →
      (cumsumFrom acc l).getD i 0 = acc + ∑ j ∈ Finset.range (i + 1), l.getD j 0 := by
  induction l with
  | nil => intro acc i h; exact absurd h (Nat.not_lt_zero i)
  | cons x xs ih =>
    intro acc i h
    cases i with
    | zero => simp [cumsumFrom]
    | succ i =>
      have hi : i < xs.length := Nat.lt_of_succ_lt_succ h
      have := ih (acc + x) i hi
      calc (cumsumFrom acc (x :: xs)).getD (i + 1) 0
          = (cumsumFrom (acc + x) xs).getD i 0 := rfl
        _ = acc + x + ∑ j ∈ Finset.range (i + 1), xs.getD j 0 := this
        _ = acc + ∑ j ∈ Finset.range (i + 1 + 1), (x :: xs).getD j 0 := by
            rw [sum_range_getD_cons x xs (i + 1)]
            ring

theorem cumsum_getD (l : List ℚ) (i : ℕ) (h : i < l.length) :
    (cumsum l).getD i 0 = ∑ j ∈ Finset.range (i + 1), l.getD j 0 := by
  have := cumsumFrom_getD l 0 i h
  simpa [cumsum] using this

theorem getD_reverse {α : Type} (l : List α) (i : ℕ) (h : i < l.length) (d : α) :
    l.reverse.getD i d = l.getD (l.length - 1 - i) d := by
  have h1 : i < l.reverse.length := by simpa using h
  have h2 : l.length - 1 - i < l.length := by omega
  rw [List.getD_eq_getElem _ _ h1, List.getD_eq_getElem _ _ h2, List.getElem_reverse]

theorem getD_zipWith {α β γ : Type} (f : α → β → γ) (a : List α) (b : List β)
    (i : ℕ) (ha : i < a.length) (hb : i < b.length) (d : γ) (da : α) (db : β) :
    (List.zipWith f a b).getD i d = f (a.getD i da) (b.getD i db) := by
  have hz : i < (List.zipWith f a b).length := by simp [List.length_zipWith]; omega
  rw [List.getD_eq_getElem _ _ hz, List.getD_eq_getElem _ _ ha, List.getD_eq_getElem _ _ hb,
    List.getElem_zipWith]

theorem getD_map_range {α : Type} (f : ℕ → α) (m i : ℕ) (h : i < m) (d : α) :
    ((List.range m).map f).getD i d = f i := by
  have hm : i < ((List.range m).map f).length := by simpa using h
  rw [List.getD_eq_getElem _ _ hm]
  simp

theorem getD_tail {α : Type} (l : List α) (i : ℕ) (h : i + 1 < l.length) (d : α) :
    l.tail.getD i d = l.getD (i + 1) d := by
  have h1 : i < l.tail.length := by simp [List.length_tail]; omega
  rw [List.getD_eq_getElem _ _ h1, List.getD_eq_getElem _ _ h, List.getElem_tail]

theorem getD_dropLast {α : Type} (l : List α) (i : ℕ) (h : i < l.length - 1) (d : α) :
    l.dropLast.getD i d = l.getD i d := by
  have h1 : i < l.dropLast.length := by simp [List.length_dropLast]; omega
  have h2 : i < l.length := by omega
  rw [List.getD_eq_getElem _ _ h1, List.getD_eq_getElem _ _ h2, List.getElem_dropLast]

/-- The sum of the entries of the list read through `getD`. -/
theorem sum_range_getD (l : List ℚ) :
    ∑ j ∈ Finset.range l.length, l.getD j 0 = l.sum := by
  induction l with
  | nil => simp
  | cons x xs ih =>
    rw [List.length_cons, Finset.sum_range_succ']
    simp only [List.getD_cons_succ, List.getD_cons_zero, List.sum_cons, ih]
    exact add_comm _ _

/-- Key fact about `np.cumsum(l[::-1])[::-1]`: entry `i` is the tail sum
from `i` on. -/
theorem cumsum_reverse_reverse_getD (l : List ℚ) (i : ℕ) (h : i < l.length) :
    ((cumsum l.reverse).reverse).getD i 0 = ∑ j ∈ Finset.Ico i l.length, l.getD j 0 := by
  have hlen : (cumsum l.reverse).length = l.length := by
    rw [cumsum_length]; simp
  have h1 : i < (cumsum l.reverse).length := by omega
  rw [getD_reverse _ _ (by omega) 0, hlen]
  have h2 : l.length - 1 - i < l.reverse.length := by simp; omega
  rw [cumsum_getD _ _ (by simpa using h2)]
  have hr : ∀ j ∈ Finset.range (l.length - 1 - i + 1),
      l.reverse.getD j 0 = l.getD (l.length - 1 - j) 0 := by
    intro j hj
    simp only [Finset.mem_range] at hj
    exact getD_reverse l j (by omega) 0
  rw [Finset.sum_congr rfl hr]
  have hm : l.length - 1 - i + 1 = l.length - i := by omega
  rw [hm]
  rw [Finset.sum_Ico_eq_sum_range]
  apply Finset.sum_nbij' (fun j => l.length - i - 1 - j) (fun j => l.length - i - 1 - j) <;>
    intro a ha <;> simp only [Finset.mem_range] at * <;> first
      | omega
      | (congr 1; omega)

/-! ### `argmax` lemmas -/

theorem argmaxGo_isFirstMax (xs : List ℚ) :
    ∀ (L : List ℚ) (i bi : ℕ) (bv : ℚ),
      L.length = i + xs.length →
      (∀ k, k < xs.length → xs.getD k 0 = L.getD (i + k) 0) →
      bi < i →
      L.getD bi 0 = bv →
      (∀ j, j < i → L.getD j 0 ≤ bv) →
      (∀ j, j < bi → L.getD j 0 < bv) →
      IsFirstMax L (argmaxGo xs i bi bv) := by
  induction xs with
  | nil =>
    intro L i bi bv hlen _ hbi hbv hub hstrict
    simp only [argmaxGo]
    refine ⟨by simp at hlen; omega, ?_, ?_⟩
    · intro j hj
      rw [hbv]
      exact hub j (by simp at hlen; omega)
    · intro j hj
      rw [hbv]
      exact hstrict j hj
  | cons x xs ih =>
    intro L i bi bv hlen hk hbi hbv hub hstrict
    have hx : L.getD i 0 = x := by
      have := hk 0 (by simp)
      simpa using this.symm
    have hk' : ∀ k, k < xs.length → xs.getD k 0 = L.getD (i + 1 + k) 0 := by
      intro k hks
      have := hk (k + 1) (by simp; omega)
      calc xs.getD k 0 = (x :: xs).getD (k + 1) 0 := by simp
        _ = L.getD (i + (k + 1)) 0 := this
        _ = L.getD (i + 1 + k) 0 := by ring_nf
    by_cases hcmp : bv < x
    · simp only [argmaxGo, if_pos hcmp]
      apply ih L (i + 1) i x
      · simp at hlen ⊢; omega
      · exact hk'
      · omega
      · exact hx
      · intro j hj
        rcases Nat.lt_or_ge j i with hji | hji
        · exact le_of_lt (lt_of_le_of_lt (hub j hji) hcmp)
        · have : j = i := by omega
          rw [this, hx]
      · intro j hj
        exact lt_of_le_of_lt (hub j hj) hcmp
    · simp only [argmaxGo, if_neg hcmp]
      apply ih L (i + 1) bi bv
      · simp at hlen ⊢; omega
      · exact hk'
      · omega
      · exact hbv
      · intro j hj
        rcases Nat.lt_or_ge j i with hji | hji
        · exact hub j hji
        · have : j = i := by omega
          rw [this, hx]
          exact le_of_not_lt hcmp
      · exact hstrict

theorem argmaxQ_isFirstMax (l : List ℚ) (h : l ≠ []) : IsFirstMax l (argmaxQ l) := by
  match l, h with
  | x :: xs, _ =>
    apply argmaxGo_isFirstMax xs (x :: xs) 1 0 x
    · simp [Nat.add_comm]
    · intro k hk; simp [Nat.add_comm 1 k]
    · omega
    · simp
    · intro j hj
      have : j = 0 := by omega
      simp [this]
    · intro j hj; omega

theorem findIdx_isNone_map_some {l : List ℚ} :
    (l.map some).findIdx? (fun o => o.isNone) = none := by
  induction l with
  | nil => rfl
  | cons x xs ih => simp_all [List.findIdx?_cons]

theorem npArgmax_map_some (l : List ℚ) : npArgmax (l.map some) = argmaxQ l := by
  unfold npArgmax
  rw [findIdx_isNone_map_some]
  rw [List.map_map]
  have : ((fun o => Option.getD o 0) ∘ some : ℚ → ℚ) = id := by
    funext x; rfl
  rw [this, List.map_id]

/-! ### Minimum and maximum of a flattened array -/

theorem foldl_min_spec (xs : List ℚ) :
    ∀ a : ℚ, (xs.foldl min a ≤ a ∧ (∀ x ∈ xs, xs.foldl min a ≤ x)) ∧
      (xs.foldl min a = a ∨ ∃ x ∈ xs, xs.foldl min a = x) := by
  induction xs with
  | nil => intro a; simp
  | cons y ys ih =>
    intro a
    have h := ih (min a y)
    constructor
    · refine ⟨le_trans h.1.1 (min_le_left a y), ?_⟩
      intro x hx
      rcases List.mem_cons.mp hx with rfl | hx
      · exact le_trans h.1.1 (min_le_right a x)
      · exact h.1.2 x hx
    · rcases h.2 with heq | ⟨x, hx, heq⟩
      · rcases le_total a y with hay | hya
        · left; rw [List.foldl_cons, heq, min_eq_left hay]
        · right; exact ⟨y, List.mem_cons_self y ys, by rw [List.foldl_cons, heq, min_eq_right hya]⟩
      · right; exact ⟨x, List.mem_cons_of_mem y hx, heq⟩

theorem foldl_max_spec (xs : List ℚ) :
    ∀ a : ℚ, (a ≤ xs.foldl max a ∧ (∀ x ∈ xs, x ≤ xs.foldl max a)) ∧
      (xs.foldl max a = a ∨ ∃ x ∈ xs, xs.foldl max a = x) := by
  induction xs with
  | nil => intro a; simp
  | cons y ys ih =>
    intro a
    have h := ih (max a y)
    constructor
    · refine ⟨le_trans (le_max_left a y) h.1.1, ?_⟩
      intro x hx
      rcases List.mem_cons.mp hx with rfl | hx
      · exact le_trans (le_max_right a x) h.1.1
      · exact h.1.2 x hx
    · rcases h.2 with heq | ⟨x, hx, heq⟩
      · rcases le_total a y with hay | hya
        · right; exact ⟨y, List.mem_cons_self y ys, by rw [List.foldl_cons, heq, max_eq_right hay]⟩
        · left; rw [List.foldl_cons, heq, max_eq_left hya]
      · right; exact ⟨x, List.mem_cons_of_mem y hx, heq⟩

theorem listMin_le (l : List ℚ) (x : ℚ) (hx : x ∈ l) : listMin l ≤ x := by
  match l, hx with
  | y :: ys, hx =>
    rcases List.mem_cons.mp hx with rfl | hmem
    · exact (foldl_min_spec ys x).1.1
    · exact (foldl_min_spec ys y).1.2 x hmem

theorem le_listMax (l : List ℚ) (x : ℚ) (hx : x ∈ l) : x ≤ listMax l := by
  match l, hx with
  | y :: ys, hx =>
    rcases List.mem_cons.mp hx with rfl | hmem
    · exact (foldl_max_spec ys x).1.1
    · exact (foldl_max_spec ys y).1.2 x hmem

theorem listMin_mem (l : List ℚ) (h : l ≠ []) : listMin l ∈ l := by
  match l, h with
  | y :: ys, _ =>
    rcases (foldl_min_spec ys y).2 with heq | ⟨x, hx, heq⟩
    · rw [listMin, heq]; exact List.mem_cons_self y ys
    · rw [listMin, heq]; exact List.mem_cons_of_mem y hx

theorem listMax_mem (l : List ℚ) (h : l ≠ []) : listMax l ∈ l := by
  match l, h with
  | y :: ys, _ =>
    rcases (foldl_max_spec ys y).2 with heq | ⟨x, hx, heq⟩
    · rw [listMax, heq]; exact List.mem_cons_self y ys
    · rw [listMax, heq]; exact List.mem_cons_of_mem y hx

/-! ### Histogram range facts -/

theorem histLo_lt_histHi (image : List ℚ) : histLo image < histHi image := by
  unfold histLo histHi
  by_cases he : image.isEmpty
  · simp [he]
  · by_cases heq : listMin image = listMax image
    · simp [he, heq]
      linarith
    · simp [he, heq]
      have hne : image ≠ [] := by
        intro hc; rw [hc] at he; exact he rfl
      exact lt_of_le_of_ne
        (listMin_le image (listMax image) (listMax_mem image hne)) heq

theorem histLo_of_lt (image : List ℚ) (h : listMin image < listMax image) :
    histLo image = listMin image := by
  have hne : ¬image.isEmpty := by
    cases image with
    | nil => simp [listMin, listMax] at h
    | cons x xs => simp
  unfold histLo
  simp [hne, ne_of_lt h]

theorem histHi_of_lt (image : List ℚ) (h : listMin image < listMax image) :
    histHi image = listMax image := by
  have hne : ¬image.isEmpty := by
    cases image with
    | nil => simp [listMin, listMax] at h
    | cons x xs => simp
  unfold histHi
  simp [hne, ne_of_lt h]

/-! ### Histogram bin facts -/

theorem binOf_listMin (image : List ℚ) (nbins : ℕ) (hlt : listMin image < listMax image) :
    binOf image nbins (listMin image) = 0 := by
  unfold binOf
  rw [histLo_of_lt image hlt]
  simp

theorem binOf_listMax (image : List ℚ) (nbins : ℕ) (hlt : listMin image < listMax image)
    (_hn : 1 ≤ nbins) : binOf image nbins (listMax image) = nbins - 1 := by
  unfold binOf
  rw [histLo_of_lt image hlt, histHi_of_lt image hlt]
  have hd : listMax image - listMin image ≠ 0 := by
    intro hc; apply ne_of_gt hlt; linarith
  have : (listMax image - listMin image) * (nbins : ℚ) / (listMax image - listMin image)
      = (nbins : ℚ) := by
    field_simp
  rw [this]
  rw [Int.floor_natCast]
  simp [Int.toNat_natCast]

theorem hist_length (image : List ℚ) (nbins : ℕ) : (hist image nbins).length = nbins := by
  simp [hist]

theorem histAt_eq_count (image : List ℚ) (nbins : ℕ) (j : ℕ) (hj : j < nbins) :
    histAt image nbins j
      = ((image.filter (fun x => binOf image nbins x == j)).length : ℚ) := by
  unfold histAt hist
  rw [getD_map_range _ _ _ hj]

theorem histAt_nonneg (image : List ℚ) (nbins : ℕ) (j : ℕ) : 0 ≤ histAt image nbins j := by
  by_cases hj : j < nbins
  · rw [histAt_eq_count image nbins j hj]
    exact_mod_cast Nat.zero_le _
  · unfold histAt
    rw [List.getD_eq_default]
    rw [hist_length]; omega

theorem histAt_head_pos (image : List ℚ) (nbins : ℕ) (hne : image ≠ [])
    (hlt : listMin image < listMax image) (hn : 1 ≤ nbins) :
    1 ≤ histAt image nbins 0 := by
  rw [histAt_eq_count image nbins 0 (by omega)]
  have hmem : listMin image ∈ image.filter (fun x => binOf image nbins x == 0) := by
    rw [List.mem_filter]
    refine ⟨listMin_mem image hne, ?_⟩
    simp [binOf_listMin image nbins hlt]
  have : 1 ≤ (image.filter (fun x => binOf image nbins x == 0)).length :=
    List.length_pos.mpr (List.ne_nil_of_mem hmem)
  exact_mod_cast this

theorem histAt_last_pos (image : List ℚ) (nbins : ℕ) (hne : image ≠ [])
    (hlt : listMin image < listMax image) (hn : 1 ≤ nbins) :
    1 ≤ histAt image nbins (nbins - 1) := by
  rw [histAt_eq_count image nbins (nbins - 1) (by omega)]
  have hmem : listMax image ∈ image.filter (fun x => binOf image nbins x == nbins - 1) := by
    rw [List.mem_filter]
    refine ⟨listMax_mem image hne, ?_⟩
    simp [binOf_listMax image nbins hlt hn]
  have : 1 ≤ (image.filter (fun x => binOf image nbins x == nbins - 1)).length :=
    List.length_pos.mpr (List.ne_nil_of_mem hmem)
  exact_mod_cast this

theorem specW1_pos (image : List ℚ) (nbins : ℕ) (hne : image ≠ [])
    (hlt : listMin image < listMax image) (hn : 1 ≤ nbins) (i : ℕ) :
    0 < specW1 image nbins i := by
  have h0 : (0 : ℕ) ∈ Finset.range (i + 1) := by simp
  have := Finset.single_le_sum (f := fun j => histAt image nbins j)
    (fun j _ => histAt_nonneg image nbins j) h0
  have h1 := histAt_head_pos image nbins hne hlt hn
  unfold specW1
  linarith

theorem specW2_pos (image : List ℚ) (nbins : ℕ) (hne : image ≠ [])
    (hlt : listMin image < listMax image) (hn : 1 ≤ nbins) (i : ℕ) (hi : i < nbins) :
    0 < specW2 image nbins i := by
  have h0 : nbins - 1 ∈ Finset.Ico i nbins := by
    simp [Finset.mem_Ico]; omega
  have := Finset.single_le_sum (f := fun j => histAt image nbins j)
    (fun j _ => histAt_nonneg image nbins j) h0
  have h1 := histAt_last_pos image nbins hne hlt hn
  unfold specW2
  linarith

/-! ### Edge, weight and mean characterizations -/

theorem binEdges_length (image : List ℚ) (nbins : ℕ) :
    (binEdges image nbins).length = nbins + 1 := by
  simp [binEdges]

theorem binEdges_getD (image : List ℚ) (nbins : ℕ) (j : ℕ) (hj : j < nbins + 1) :
    (binEdges image nbins).getD j 0
      = histLo image + (j : ℚ) * (histHi image - histLo image) / nbins := by
  unfold binEdges
  rw [getD_map_range _ _ _ hj]

theorem centerAt_eq (image : List ℚ) (nbins : ℕ) (j : ℕ) (hj : j < nbins) :
    centerAt image nbins j
      = ((binEdges image nbins).getD j 0 + (binEdges image nbins).getD (j + 1) 0) / 2 := by
  unfold centerAt binCenters
  rw [getD_map_range _ _ _ hj]

/-- Each upper bin edge is the bin center shifted up by half a bin width:
the uniform shift that cancels in the between-class variance. -/
theorem edge_succ_eq_center_add (image : List ℚ) (nbins : ℕ) (hn : 1 ≤ nbins) (j : ℕ)
    (hj : j < nbins) :
    (binEdges image nbins).getD (j + 1) 0
      = centerAt image nbins j + (histHi image - histLo image) / (2 * nbins) := by
  rw [centerAt_eq image nbins j hj,
    binEdges_getD image nbins j (by omega), binEdges_getD image nbins (j + 1) (by omega)]
  have hq : (nbins : ℚ) ≠ 0 := Nat.cast_ne_zero.mpr (by omega)
  push_cast
  field_simp
  ring

theorem weight1_length (image : List ℚ) (nbins : ℕ) : (weight1 image nbins).length = nbins := by
  rw [weight1, cumsum_length, hist_length]

theorem weight2_length (image : List ℚ) (nbins : ℕ) : (weight2 image nbins).length = nbins := by
  rw [weight2]
  simp [cumsum_length]
  exact hist_length image nbins

theorem weight1_getD (image : List ℚ) (nbins : ℕ) (i : ℕ) (hi : i < nbins) :
    (weight1 image nbins).getD i 0 = specW1 image nbins i := by
  unfold weight1 specW1
  rw [cumsum_getD _ _ (by rw [hist_length]; omega)]
  rfl

theorem weight2_getD (image : List ℚ) (nbins : ℕ) (i : ℕ) (hi : i < nbins) :
    (weight2 image nbins).getD i 0 = specW2 image nbins i := by
  unfold weight2 specW2
  rw [cumsum_reverse_reverse_getD _ _ (by rw [hist_length]; omega), hist_length]
  rfl

theorem prods_length (image : List ℚ) (nbins : ℕ) : (prods image nbins).length = nbins := by
  simp [prods, hist_length, binEdges]

theorem prods_getD (image : List ℚ) (nbins : ℕ) (j : ℕ) (hj : j < nbins) :
    (prods image nbins).getD j 0
      = histAt image nbins j * (binEdges image nbins).getD (j + 1) 0 := by
  unfold prods
  rw [getD_zipWith _ _ _ _ (by rw [hist_length]; omega)
    (by simp [binEdges]; omega) 0 0 0]
  rw [getD_tail _ _ (by rw [binEdges_length]; omega) 0]
  rfl

theorem mean1_getD (image : List ℚ) (nbins : ℕ) (i : ℕ) (hi : i < nbins) :
    (mean1 image nbins).getD i none
      = ndiv (∑ j ∈ Finset.range (i + 1),
          histAt image nbins j * (binEdges image nbins).getD (j + 1) 0)
        (specW1 image nbins i) := by
  unfold mean1
  rw [getD_zipWith _ _ _ _ (by rw [cumsum_length, prods_length]; omega)
    (by rw [weight1_length]; omega) none 0 0]
  rw [cumsum_getD _ _ (by rw [prods_length]; omega), weight1_getD image nbins i hi]
  congr 1
  refine Finset.sum_congr rfl ?_
  intro j hj
  simp only [Finset.mem_range] at hj
  exact prods_getD image nbins j (by omega)

theorem mean2_getD (image : List ℚ) (nbins : ℕ) (i : ℕ) (hi : i < nbins) :
    (mean2 image nbins).getD i none
      = ndiv (∑ j ∈ Finset.Ico i nbins,
          histAt image nbins j * (binEdges image nbins).getD (j + 1) 0)
        (specW2 image nbins i) := by
  unfold mean2
  have hzlen : (List.zipWith ndiv (cumsum (prods image nbins).reverse)
      (weight2 image nbins).reverse).length = nbins := by
    simp [cumsum_length, prods_length, weight2_length]
  rw [getD_reverse _ _ (by rw [hzlen]; omega) none, hzlen]
  rw [getD_zipWith _ _ _ _
    (by simp [cumsum_length, prods_length]; omega)
    (by simp [weight2_length]; omega) none 0 0]
  have hc : (cumsum (prods image nbins).reverse).getD (nbins - 1 - i) 0
      = ∑ j ∈ Finset.Ico i nbins, (prods image nbins).getD j 0 := by
    have := cumsum_reverse_reverse_getD (prods image nbins) i (by rw [prods_length]; omega)
    rw [prods_length] at this
    rw [← this]
    rw [getD_reverse (cumsum (prods image nbins).reverse) i
      (by simp [cumsum_length, prods_length]; omega) 0]
    congr 1
    simp [cumsum_length, prods_length]
  have hw : ((weight2 image nbins).reverse).getD (nbins - 1 - i) 0
      = specW2 image nbins i := by
    rw [getD_reverse _ _ (by rw [weight2_length]; omega) 0, weight2_length]
    have : nbins - 1 - (nbins - 1 - i) = i := by omega
    rw [this, weight2_getD image nbins i hi]
  rw [hc, hw]
  congr 1
  refine Finset.sum_congr rfl ?_
  intro j hj
  simp only [Finset.mem_Ico] at hj
  exact prods_getD image nbins j (by omega)

/-! ### The half-bin shift cancellation and the variance identity -/

theorem mean1_some (image : List ℚ) (nbins : ℕ) (hne : image ≠ [])
    (hlt : listMin image < listMax image) (hn : 1 ≤ nbins) (i : ℕ) (hi : i < nbins) :
    (mean1 image nbins).getD i none
      = some (specMu1 image nbins i + (histHi image - histLo image) / (2 * nbins)) := by
  rw [mean1_getD image nbins i hi]
  have hw := specW1_pos image nbins hne hlt hn i
  unfold ndiv
  rw [if_neg (ne_of_gt hw)]
  congr 1
  have hsum : ∑ j ∈ Finset.range (i + 1),
      histAt image nbins j * (binEdges image nbins).getD (j + 1) 0
      = (∑ j ∈ Finset.range (i + 1), histAt image nbins j * centerAt image nbins j)
        + (histHi image - histLo image) / (2 * nbins) * specW1 image nbins i := by
    unfold specW1
    calc ∑ j ∈ Finset.range (i + 1),
        histAt image nbins j * (binEdges image nbins).getD (j + 1) 0
        = ∑ j ∈ Finset.range (i + 1),
            (histAt image nbins j * centerAt image nbins j
              + (histHi image - histLo image) / (2 * nbins) * histAt image nbins j) := by
          refine Finset.sum_congr rfl ?_
          intro j hj
          simp only [Finset.mem_range] at hj
          rw [edge_succ_eq_center_add image nbins hn j (by omega)]
          ring
      _ = _ := by
          rw [Finset.sum_add_distrib, ← Finset.mul_sum]
  rw [hsum]
  unfold specMu1
  rw [add_div, mul_div_assoc,
    div_self (ne_of_gt (specW1_pos image nbins hne hlt hn i)), mul_one]

theorem mean2_some (image : List ℚ) (nbins : ℕ) (hne : image ≠ [])
    (hlt : listMin image < listMax image) (hn : 1 ≤ nbins) (i : ℕ) (hi : i < nbins) :
    (mean2 image nbins).getD i none
      = some (specMu2 image nbins i + (histHi image - histLo image) / (2 * nbins)) := by
  rw [mean2_getD image nbins i hi]
  have hw := specW2_pos image nbins hne hlt hn i hi
  unfold ndiv
  rw [if_neg (ne_of_gt hw)]
  congr 1
  have hsum : ∑ j ∈ Finset.Ico i nbins,
      histAt image nbins j * (binEdges image nbins).getD (j + 1) 0
      = (∑ j ∈ Finset.Ico i nbins, histAt image nbins j * centerAt image nbins j)
        + (histHi image - histLo image) / (2 * nbins) * specW2 image nbins i := by
    unfold specW2
    calc ∑ j ∈ Finset.Ico i nbins,
        histAt image nbins j * (binEdges image nbins).getD (j + 1) 0
        = ∑ j ∈ Finset.Ico i nbins,
            (histAt image nbins j * centerAt image nbins j
              + (histHi image - histLo image) / (2 * nbins) * histAt image nbins j) := by
          refine Finset.sum_congr rfl ?_
          intro j hj
          simp only [Finset.mem_Ico] at hj
          rw [edge_succ_eq_center_add image nbins hn j (by omega)]
          ring
      _ = _ := by
          rw [Finset.sum_add_distrib, ← Finset.mul_sum]
  rw [hsum]
  unfold specMu2
  rw [add_div, mul_div_assoc, div_self (ne_of_gt hw), mul_one]

theorem variance12_length (image : List ℚ) (nbins : ℕ) :
    (variance12 image nbins).length = nbins - 1 := by
  simp [variance12, mean1, mean2, weight1, weight2, prods, cumsum_length, hist_length,
    binEdges]

theorem variance12_getD_eq (image : List ℚ) (nbins : ℕ) (hne : image ≠ [])
    (hlt : listMin image < listMax image) (hn : 2 ≤ nbins) (i : ℕ) (hi : i < nbins - 1) :
    (variance12 image nbins).getD i none = some (specVariance image nbins i) := by
  have hw1len : (weight1 image nbins).length = nbins := weight1_length image nbins
  have hw2len : (weight2 image nbins).length = nbins := weight2_length image nbins
  have hm1len : (mean1 image nbins).length = nbins := by
    simp [mean1, cumsum_length, prods_length, weight1_length]
  have hm2len : (mean2 image nbins).length = nbins := by
    simp [mean2, cumsum_length, prods_length, weight2_length]
  unfold variance12
  rw [getD_zipWith _ _ _ _
    (by simp [hw1len, hw2len]; omega)
    (by simp [hm1len, hm2len]; omega) none 0 none]
  rw [getD_zipWith _ _ _ _
    (by simp [hw1len]; omega) (by simp [hw2len]; omega) 0 0 0]
  rw [getD_zipWith _ _ _ _
    (by simp [hm1len]; omega) (by simp [hm2len]; omega) none none none]
  rw [getD_dropLast _ _ (by rw [hw1len]; omega) 0,
    getD_tail _ _ (by rw [hw2len]; omega) 0,
    getD_dropLast _ _ (by rw [hm1len]; omega) none,
    getD_tail _ _ (by rw [hm2len]; omega) none]
  rw [weight1_getD image nbins i (by omega), weight2_getD image nbins (i + 1) (by omega)]
  rw [mean1_some image nbins hne hlt (by omega) i (by omega),
    mean2_some image nbins hne hlt (by omega) (i + 1) (by omega)]
  unfold msub specVariance
  simp only [Option.map_some']
  congr 1
  ring

theorem specVarianceList_length (image : List ℚ) (nbins : ℕ) :
    (specVarianceList image nbins).length = nbins - 1 := by
  simp [specVarianceList]

theorem variance12_eq_map_some (image : List ℚ) (nbins : ℕ) (hne : image ≠ [])
    (hlt : listMin image < listMax image) (hn : 2 ≤ nbins) :
    variance12 image nbins = (specVarianceList image nbins).map some := by
  apply List.ext_getElem
  · rw [variance12_length]
    simp [specVarianceList_length]
  · intro i h1 h2
    have hi : i < nbins - 1 := by rw [variance12_length] at h1; omega
    have hv := variance12_getD_eq image nbins hne hlt hn i hi
    rw [List.getD_eq_getElem _ none h1] at hv
    rw [hv]
    simp [specVarianceList]

/-! ### Claim C1: the Otsu thresholder -/

/-- C1 (amended): `otsu(image, nbins)` builds a histogram, computes for every
candidate split the between-class variance `w1*w2*(mu1-mu2)^2` from
cumulative bin-count weights and cumulative weighted bin-center means (the
code uses upper bin EDGES in the means, but the uniform half-bin shift
cancels, so the variances and the selected split agree with the bin-center
formula), selects the first maximizing split on ties, and returns the LOWER
BIN-EDGE intensity at that index, not the bin-center intensity. -/
theorem otsu_first_max_lower_edge (image : List ℚ) (nbins : ℕ) (hne : image ≠ [])
    (hn : 2 ≤ nbins) (hlt : listMin image < listMax image) :
    ∃ idx, IsFirstMax (specVarianceList image nbins) idx ∧
      otsu image nbins = some ((binEdges image nbins).getD idx 0) := by
  have hv := variance12_eq_map_some image nbins hne hlt hn
  have hlen := specVarianceList_length image nbins
  have hne2 : specVarianceList image nbins ≠ [] := by
    intro hc
    rw [hc] at hlen
    simp at hlen
    omega
  have hfm := argmaxQ_isFirstMax _ hne2
  refine ⟨argmaxQ (specVarianceList image nbins), hfm, ?_⟩
  unfold otsu
  rw [hv, npArgmax_map_some]
  rw [if_neg (by simp [hne2])]
  have hidx : argmaxQ (specVarianceList image nbins) < nbins - 1 := by
    have := hfm.1
    rw [hlen] at this
    exact this
  rw [getD_dropLast _ _ (by rw [binEdges_length]; omega) 0]

/-- Witness for C1 at a concrete image. -/
theorem otsu_first_max_lower_edge_witness :
    ∃ idx, IsFirstMax (specVarianceList [0, 1] 2) idx ∧
      otsu [0, 1] 2 = some ((binEdges [0, 1] 2).getD idx 0) :=
  otsu_first_max_lower_edge [0, 1] 2 (by decide) (by decide) (by decide)

/-- Counterexample for C1 as frozen: on the two-sample image `[0, 1]` with
two bins the code returns the lower edge `0` of the selected bin, while the
bin-center reading of the spec returns the center `1/4`. -/
theorem otsu_center_counterexample :
    otsu [0, 1] 2 = some 0 ∧ otsuSpecCenters [0, 1] 2 = some (1/4) ∧
      otsu [0, 1] 2 ≠ otsuSpecCenters [0, 1] 2 := by
  refine ⟨by decide, by decide, by decide⟩

/-! ### Claim C2: binary thresholding -/

/-- C2: after `binary_threshold(vol, thresh)`, every sample that was
strictly greater than `thresh` equals the maximum representable value of
the dtype of the volume, and every sample at most `thresh` (including
exactly equal) equals `0`.  The hypothesis is the dtype invariant: every
stored sample is at most the dtype maximum. -/
theorem binary_threshold_strict (v : NDArr) (thresh : ℚ) (signed : Bool) (bits : ℕ)
    (idx : List ℕ) (hrep : v.data idx ≤ (maxvalue signed bits : ℚ)) :
    (thresh < v.data idx →
      (binary_threshold v thresh (maxvalue signed bits)).data idx = (maxvalue signed bits : ℚ)) ∧
    (v.data idx ≤ thresh →
      (binary_threshold v thresh (maxvalue signed bits)).data idx = 0) := by
  constructor
  · intro h
    show threshStep (maxvalue signed bits : ℚ) thresh (v.data idx) = (maxvalue signed bits : ℚ)
    unfold threshStep
    simp only
    rw [if_pos h, if_neg (not_le.mpr (lt_of_lt_of_le h hrep))]
  · intro h
    show threshStep (maxvalue signed bits : ℚ) thresh (v.data idx) = 0
    unfold threshStep
    simp only
    rw [if_neg (not_lt.mpr h), if_pos h]

/-- Witness for C2 on a concrete 8-bit unsigned volume. -/
theorem binary_threshold_strict_witness :
    (3 < (5 : ℚ) →
      (binary_threshold ⟨[1], fun _ => 5⟩ 3 (maxvalue false 8)).data [0] = (maxvalue false 8 : ℚ)) ∧
    ((5 : ℚ) ≤ 3 →
      (binary_threshold ⟨[1], fun _ => 5⟩ 3 (maxvalue false 8)).data [0] = 0) :=
  binary_threshold_strict ⟨[1], fun _ => 5⟩ 3 false 8 [0] (by decide)

/-! ### Claims C3, C5, C8: mask application -/

/-- C3: with a mask of the same shape, `applymask` succeeds and zeroes
exactly the positions where the mask is zero, leaving all other samples
unchanged. -/
theorem applymask_equal_shape (vol mask : NDArr) (h : mask.shape = vol.shape) :
    ∃ r, applymask vol mask = Except.ok r ∧ r.shape = vol.shape ∧
      ∀ idx : List ℕ, idx.length = vol.shape.length →
        (mask.data idx = 0 → r.data idx = 0) ∧
        (mask.data idx ≠ 0 → r.data idx = vol.data idx) := by
  refine ⟨applymaskCore vol mask, ?_, rfl, ?_⟩
  · unfold applymask
    rw [if_neg (by rw [h]; omega)]
  · intro idx hlen
    have htake : idx.take mask.shape.length = idx := by
      rw [h, ← hlen]
      exact List.take_length idx
    constructor
    · intro h0
      show (if mask.data (idx.take mask.shape.length) = 0 then 0 else vol.data idx) = 0
      rw [htake, if_pos h0]
    · intro hne
      show (if mask.data (idx.take mask.shape.length) = 0 then 0 else vol.data idx)
        = vol.data idx
      rw [htake, if_neg hne]

/-- Witness for C3 on a concrete pair. -/
theorem applymask_equal_shape_witness :
    ∃ r, applymask ⟨[2], fun idx => if idx = [0] then 3 else 7⟩
        ⟨[2], fun idx => if idx = [0] then 0 else 1⟩ = Except.ok r ∧
      r.shape = [2] ∧
      ∀ idx : List ℕ, idx.length = ([2] : List ℕ).length →
        ((if idx = [0] then (0:ℚ) else 1) = 0 → r.data idx = 0) ∧
        ((if idx = [0] then (0:ℚ) else 1) ≠ 0 →
          r.data idx = (if idx = [0] then (3:ℚ) else 7)) :=
  applymask_equal_shape ⟨[2], fun idx => if idx = [0] then 3 else 7⟩
    ⟨[2], fun idx => if idx = [0] then 0 else 1⟩ rfl

/-- C5: with a mask of strictly fewer dimensions than the volume,
`applymask` applies the one mask across every index of the trailing axes:
at every position `p` of the mask and every trailing index `c`, the sample
at `p ++ c` is zeroed when `mask p = 0` and kept when `mask p` is nonzero.
In particular a 4-D volume with a 3-D mask has all its trailing channels
zeroed identically at `mask == 0` positions. -/
theorem applymask_broadcast (vol mask : NDArr) (hlt : mask.shape.length < vol.shape.length) :
    ∃ r, applymask vol mask = Except.ok r ∧ r.shape = vol.shape ∧
      ∀ p c : List ℕ, p.length = mask.shape.length →
        (mask.data p = 0 → r.data (p ++ c) = 0) ∧
        (mask.data p ≠ 0 → r.data (p ++ c) = vol.data (p ++ c)) := by
  refine ⟨applymaskCore vol mask, ?_, rfl, ?_⟩
  · unfold applymask
    rw [if_neg (by omega)]
  · intro p c hlen
    have htake : (p ++ c).take mask.shape.length = p := List.take_left' hlen
    constructor
    · intro h0
      show (if mask.data ((p ++ c).take mask.shape.length) = 0 then 0
        else vol.data (p ++ c)) = 0
      rw [htake, if_pos h0]
    · intro hne
      show (if mask.data ((p ++ c).take mask.shape.length) = 0 then 0
        else vol.data (p ++ c)) = vol.data (p ++ c)
      rw [htake, if_neg hne]

/-- Witness for C5: a 1 x 1 x 1 x 4 volume with a 1 x 1 x 1 mask. -/
theorem applymask_broadcast_witness :
    ∃ r, applymask ⟨[1, 1, 1, 4], fun _ => 5⟩ ⟨[1, 1, 1], fun _ => 0⟩ = Except.ok r ∧
      r.shape = [1, 1, 1, 4] ∧
      ∀ p c : List ℕ, p.length = ([1, 1, 1] : List ℕ).length →
        ((0 : ℚ) = 0 → r.data (p ++ c) = 0) ∧
        ((0 : ℚ) ≠ 0 → r.data (p ++ c) = 5) :=
  applymask_broadcast ⟨[1, 1, 1, 4], fun _ => 5⟩ ⟨[1, 1, 1], fun _ => 0⟩ (by decide)

/-- C8: a mask with strictly more dimensions than the volume makes
`applymask` fail fast with the dimensionality error of line 139; it is
neither a silent no-op nor another kind of failure. -/
theorem applymask_dim_error (vol mask : NDArr) (h : vol.shape.length < mask.shape.length) :
    applymask vol mask = Except.error applymaskMsg := by
  unfold applymask
  rw [if_pos h]

/-- Witness for C8: a 2-D mask against a 1-D volume. -/
theorem applymask_dim_error_witness :
    applymask ⟨[2], fun _ => 1⟩ ⟨[2, 2], fun _ => 1⟩ = Except.error applymaskMsg :=
  applymask_dim_error ⟨[2], fun _ => 1⟩ ⟨[2, 2], fun _ => 1⟩ (by decide)

/-! ### Claim C6: out-of-range cropping -/

/-- C6 (amended): `crop` never fails on out-of-range bounds.  Python slice
semantics silently clamp: cropping with bounds beyond the extent of the
array equals cropping with the bounds clamped to the extent. -/
theorem crop_silently_clamps (vol : NDArr) (mins maxs : List ℕ)
    (h0 : 1 ≤ vol.shape.getD 0 0) (h1 : 1 ≤ vol.shape.getD 1 0)
    (h2 : 1 ≤ vol.shape.getD 2 0) :
    crop vol mins maxs =
      crop vol
        [min (mins.getD 0 0) (vol.shape.getD 0 0), min (mins.getD 1 0) (vol.shape.getD 1 0),
          min (mins.getD 2 0) (vol.shape.getD 2 0)]
        [min (maxs.getD 0 0) (vol.shape.getD 0 0 - 1), min (maxs.getD 1 0) (vol.shape.getD 1 0 - 1),
          min (maxs.getD 2 0) (vol.shape.getD 2 0 - 1)] := by
  simp only [crop, cropStart, cropStop, List.getD_cons_zero, List.getD_cons_succ]
  have e0 : min (min (mins.getD 0 0) (vol.shape.getD 0 0)) (vol.shape.getD 0 0)
      = min (mins.getD 0 0) (vol.shape.getD 0 0) := by omega
  have e1 : min (min (mins.getD 1 0) (vol.shape.getD 1 0)) (vol.shape.getD 1 0)
      = min (mins.getD 1 0) (vol.shape.getD 1 0) := by omega
  have e2 : min (min (mins.getD 2 0) (vol.shape.getD 2 0)) (vol.shape.getD 2 0)
      = min (mins.getD 2 0) (vol.shape.getD 2 0) := by omega
  have f0 : min (min (maxs.getD 0 0) (vol.shape.getD 0 0 - 1) + 1) (vol.shape.getD 0 0)
      = min (maxs.getD 0 0 + 1) (vol.shape.getD 0 0) := by omega
  have f1 : min (min (maxs.getD 1 0) (vol.shape.getD 1 0 - 1) + 1) (vol.shape.getD 1 0)
      = min (maxs.getD 1 0 + 1) (vol.shape.getD 1 0) := by omega
  have f2 : min (min (maxs.getD 2 0) (vol.shape.getD 2 0 - 1) + 1) (vol.shape.getD 2 0)
      = min (maxs.getD 2 0 + 1) (vol.shape.getD 2 0) := by omega
  rw [e0, e1, e2, f0, f1, f2]

/-- Witness for C6: on `cvol`, bounds `[5,5,5]` beyond the extent give the
same array as the clamped bounds `[1,1,1]`. -/
theorem crop_silently_clamps_witness :
    crop cvol [0, 0, 0] [5, 5, 5] =
      crop cvol
        [min 0 (cvol.shape.getD 0 0), min 0 (cvol.shape.getD 1 0), min 0 (cvol.shape.getD 2 0)]
        [min 5 (cvol.shape.getD 0 0 - 1), min 5 (cvol.shape.getD 1 0 - 1),
          min 5 (cvol.shape.getD 2 0 - 1)] :=
  crop_silently_clamps cvol [0, 0, 0] [5, 5, 5] (by decide) (by decide) (by decide)

/-- Counterexample for C6 as frozen: cropping `cvol` (extent 2 per axis)
with `maxs = [5,5,5]` does not fail; it silently returns the same array as
the in-range crop `[1,1,1]`, a full-extent `2 x 2 x 2` result. -/
theorem crop_out_of_range_counterexample :
    crop cvol [0, 0, 0] [5, 5, 5] = crop cvol [0, 0, 0] [1, 1, 1] ∧
      (crop cvol [0, 0, 0] [5, 5, 5]).shape = [2, 2, 2] :=
  ⟨rfl, rfl⟩

/-! ### Claim C7: the empty bounding box -/

/-- C7 (amended): on a mask with no nonzero voxel, `bounding_box` does not
fail and signals the condition with a printed warning, but it returns the
HARDCODED three-coordinate pair `([0,0,0], [0,0,0])` whatever the
dimensionality of the mask, not one coordinate per axis. -/
theorem bounding_box_empty_mask (m : NDArr)
    (h : ∀ idx ∈ indices m.shape, m.data idx = 0) :
    bounding_box m = ([0, 0, 0], [0, 0, 0]) ∧ bounding_box_warning m = true := by
  have hnz : nonzeroIndices m = [] := by
    unfold nonzeroIndices
    rw [List.filter_eq_nil_iff]
    intro a ha
    simp [h a ha]
  constructor
  · unfold bounding_box
    rw [hnz]
  · unfold bounding_box_warning
    rw [hnz]
    rfl

/-- Witness for C7 on a concrete all-zero 3-D mask. -/
theorem bounding_box_empty_mask_witness :
    bounding_box ⟨[1, 1, 1], fun _ => (0 : ℚ)⟩ = ([0, 0, 0], [0, 0, 0]) ∧
      bounding_box_warning ⟨[1, 1, 1], fun _ => (0 : ℚ)⟩ = true :=
  bounding_box_empty_mask ⟨[1, 1, 1], fun _ => (0 : ℚ)⟩ (fun _ _ => rfl)

/-- Counterexample for C7 as frozen: an all-zero 2-D mask has two axes, but
the returned mins vector has three coordinates, so the returned box does
not have one coordinate per axis of the mask. -/
theorem bounding_box_dims_counterexample :
    (bounding_box ⟨[2, 2], fun _ => (0 : ℚ)⟩).1.length = 3 ∧
      (NDArr.mk [2, 2] (fun _ => (0 : ℚ))).shape.length = 2 ∧
      bounding_box_warning ⟨[2, 2], fun _ => (0 : ℚ)⟩ = true := by
  refine ⟨by decide, by decide, by decide⟩

/-! ### Claim C4: the pipeline and the buffer of the caller -/

theorem multi_median_shape (medfilt : NDArr → NDArr)
    (hsh : ∀ v, (medfilt v).shape = v.shape) (input : NDArr) :
    ∀ numpass, (multi_median medfilt input numpass).shape = input.shape := by
  intro n
  induction n with
  | zero => rfl
  | succ k ih =>
    unfold multi_median at *
    rw [Function.iterate_succ_apply', hsh, ih]

/-- C4 (amended): `medotsu` filters and thresholds a private copy of the
input, but its final `applymask(input_volume, mask)` writes in place into
the array of the caller: with `autocrop = false` the buffer of the caller
after the call IS the returned masked volume — zero wherever the computed
binary mask is zero, the original sample elsewhere. -/
theorem medotsu_masks_in_place (medfilt : NDArr → NDArr) (maxval : ℚ) (input : NDArr)
    (numpass : ℕ) (hsh : ∀ v, (medfilt v).shape = v.shape) (t : ℚ)
    (ht : otsu (flatten (multi_median medfilt input numpass)) 256 = some t) :
    ∃ ret mask, medotsu medfilt maxval input numpass false = some (ret, mask, ret) ∧
      mask = binary_threshold (multi_median medfilt input numpass) t maxval ∧
      ret.shape = input.shape ∧
      ∀ idx : List ℕ, idx.length = input.shape.length →
        (mask.data idx = 0 → ret.data idx = 0) ∧
        (mask.data idx ≠ 0 → ret.data idx = input.data idx) := by
  have hs0 : (multi_median medfilt input numpass).shape = input.shape :=
    multi_median_shape medfilt hsh input numpass
  have hms : (binary_threshold (multi_median medfilt input numpass) t maxval).shape
      = input.shape := hs0
  have happ : applymask input (binary_threshold (multi_median medfilt input numpass) t maxval)
      = Except.ok (applymaskCore input
          (binary_threshold (multi_median medfilt input numpass) t maxval)) := by
    unfold applymask
    rw [if_neg (by rw [hms]; omega)]
  refine ⟨applymaskCore input (binary_threshold (multi_median medfilt input numpass) t maxval),
    binary_threshold (multi_median medfilt input numpass) t maxval, ?_, rfl, rfl, ?_⟩
  · unfold medotsu
    dsimp only
    rw [ht]
    dsimp only
    simp only [Bool.false_eq_true, if_false]
    rw [happ]
  · intro idx hlen
    have htake : idx.take
        (binary_threshold (multi_median medfilt input numpass) t maxval).shape.length
        = idx := by
      rw [hms, ← hlen]
      exact List.take_length idx
    constructor
    · intro h0
      show (if (binary_threshold (multi_median medfilt input numpass) t maxval).data
          (idx.take (binary_threshold (multi_median medfilt input numpass) t
            maxval).shape.length) = 0 then 0 else input.data idx) = 0
      rw [htake, if_pos h0]
    · intro hne
      show (if (binary_threshold (multi_median medfilt input numpass) t maxval).data
          (idx.take (binary_threshold (multi_median medfilt input numpass) t
            maxval).shape.length) = 0 then 0 else input.data idx) = input.data idx
      rw [htake, if_neg hne]

/-- Witness for C4 on the concrete volume `c4input` with the identity as
the radius-zero median filter (a window of size one leaves every sample in
place). -/
theorem medotsu_masks_in_place_witness :
    ∃ ret mask, medotsu id 255 c4input 1 false = some (ret, mask, ret) ∧
      mask = binary_threshold (multi_median id c4input 1) 2 255 ∧
      ret.shape = c4input.shape ∧
      ∀ idx : List ℕ, idx.length = c4input.shape.length →
        (mask.data idx = 0 → ret.data idx = 0) ∧
        (mask.data idx ≠ 0 → ret.data idx = c4input.data idx) :=
  medotsu_masks_in_place id 255 c4input 1 (fun _ => rfl) 2 (by decide)

/-- Counterexample for C4 as frozen: calling `medotsu` on `c4input` (with
`autocrop = false`) leaves the buffer of the caller holding `0` at position
`[0,0,1]`, where the original array held `2`: the call mutated the
original array of the caller. -/
theorem medotsu_mutates_caller :
    (medotsu id 255 c4input 1 false).elim 9 (fun r => r.2.2.data [0, 0, 1]) = 0 ∧
      c4input.data [0, 0, 1] = 2 ∧ (medotsu id 255 c4input 1 false).isSome = true := by
  refine ⟨by decide, by decide, by decide⟩

/-! ### Claim C10: degenerate images do not crash the thresholder -/

theorem npArgmax_head_none (l : List (Option ℚ)) (hne : l ≠ [])
    (h : l.getD 0 none = none) : npArgmax l = 0 := by
  match l, hne with
  | x :: xs, _ =>
    have hx : x = none := by simpa using h
    unfold npArgmax
    rw [hx]
    simp [List.findIdx?_cons]

/-- When the first histogram bin is empty, `weight1[0] = 0`, so `mean1[0]`
is the NaN of a `0/0` float division, the first variance entry is NaN, and
`np.argmax` returns index `0`: the returned threshold is the lower range
end.  No exception is raised anywhere on this path. -/
theorem otsu_of_empty_first_bin (image : List ℚ) (nbins : ℕ) (hn : 2 ≤ nbins)
    (h : histAt image nbins 0 = 0) : otsu image nbins = some (histLo image) := by
  have hm1 : (mean1 image nbins).getD 0 none = none := by
    rw [mean1_getD image nbins 0 (by omega)]
    have hw : specW1 image nbins 0 = 0 := by
      unfold specW1
      rw [Finset.sum_range_one]
      exact h
    rw [hw]
    unfold ndiv
    rw [if_pos rfl]
  have hw1len : (weight1 image nbins).length = nbins := weight1_length image nbins
  have hw2len : (weight2 image nbins).length = nbins := weight2_length image nbins
  have hm1len : (mean1 image nbins).length = nbins := by
    simp [mean1, cumsum_length, prods_length, weight1_length]
  have hm2len : (mean2 image nbins).length = nbins := by
    simp [mean2, cumsum_length, prods_length, weight2_length]
  have hvar : (variance12 image nbins).getD 0 none = none := by
    unfold variance12
    rw [getD_zipWith _ _ _ _
      (by simp [hw1len, hw2len]; omega)
      (by simp [hm1len, hm2len]; omega) none 0 none]
    rw [getD_zipWith _ _ _ _
      (by simp [hm1len]; omega) (by simp [hm2len]; omega) none none none]
    rw [getD_dropLast _ _ (by rw [hm1len]; omega) none]
    rw [hm1]
    rfl
  have hvlen : (variance12 image nbins).length = nbins - 1 := variance12_length image nbins
  have hvne : variance12 image nbins ≠ [] := by
    intro hc
    rw [hc] at hvlen
    simp at hvlen
    omega
  unfold otsu
  rw [if_neg hvne, npArgmax_head_none _ hvne hvar,
    getD_dropLast _ _ (by rw [binEdges_length]; omega) 0,
    binEdges_getD image nbins 0 (by omega)]
  norm_num

theorem binOf_const (image : List ℚ) (hne : image ≠ []) (c : ℚ)
    (hc : ∀ x ∈ image, x = c) : binOf image 256 c = 128 := by
  have hmin : listMin image = c := hc _ (listMin_mem image hne)
  have hmax : listMax image = c := hc _ (listMax_mem image hne)
  have hie : ¬image.isEmpty := by
    cases image with
    | nil => exact absurd rfl hne
    | cons x xs => simp
  have hlo : histLo image = c - 1/2 := by
    unfold histLo
    simp [hie, hmin, hmax]
  have hhi : histHi image = c + 1/2 := by
    unfold histHi
    simp [hie, hmin, hmax]
  unfold binOf
  rw [hlo, hhi]
  norm_num
  rfl

/-- C10: on an empty image or an image whose samples all share one value,
`otsu(image, 256)` terminates and returns a scalar threshold, raising no
error.  (The histogram primitive is modelled total, per the external
interface of spec section 6; the NaN entries arising from `0/0` are
propagated to `np.argmax`, which returns the first NaN index.) -/
theorem otsu_degenerate_total (image : List ℚ) (h : ∃ c, ∀ x ∈ image, x = c) :
    ∃ t, otsu image 256 = some t := by
  obtain ⟨c, hc⟩ := h
  refine ⟨histLo image, otsu_of_empty_first_bin image 256 (by omega) ?_⟩
  by_cases hne : image = []
  · subst hne
    rw [histAt_eq_count [] 256 0 (by omega)]
    simp
  · rw [histAt_eq_count image 256 0 (by omega)]
    have : image.filter (fun x => binOf image 256 x == 0) = [] := by
      rw [List.filter_eq_nil_iff]
      intro a ha
      rw [hc a ha, binOf_const image hne c hc]
      simp
    rw [this]
    simp

/-- Witness for C10 at the concrete single-valued image `[5, 5]`. -/
theorem otsu_degenerate_total_witness : ∃ t, otsu [5, 5] 256 = some t :=
  otsu_degenerate_total [5, 5] ⟨5, by decide⟩

/-! ### Claim C9: cropping to the own bounding box -/

theorem mem_indices (shape : List ℕ) :
    ∀ idx : List ℕ, idx ∈ indices shape ↔ List.Forall₂ (· < ·) idx shape := by
  induction shape with
  | nil =>
    intro idx
    simp [indices, List.forall₂_nil_right_iff]
  | cons d rest ih =>
    intro idx
    simp only [indices, List.mem_flatMap, List.mem_map, List.mem_range]
    constructor
    · rintro ⟨i, hi, t, ht, rfl⟩
      exact List.Forall₂.cons hi ((ih t).mp ht)
    · intro hf
      rcases List.forall₂_cons_right_iff.mp hf with ⟨a, l, ha, hl, rfl⟩
      exact ⟨a, ha, l, (ih l).mpr hl, rfl⟩

theorem forall₂_lt_getD {idx shape : List ℕ} (h : List.Forall₂ (· < ·) idx shape) :
    idx.length = shape.length ∧ ∀ d, d < shape.length → idx.getD d 0 < shape.getD d 0 := by
  obtain ⟨hlen, hget⟩ := List.forall₂_iff_get.mp h
  refine ⟨hlen, ?_⟩
  intro d hd
  have h1 : d < idx.length := by omega
  rw [List.getD_eq_getElem _ _ h1, List.getD_eq_getElem _ _ hd]
  exact hget d h1 hd

theorem forall₂_lt_of_getD {idx shape : List ℕ} (hlen : idx.length = shape.length)
    (h : ∀ d, d < shape.length → idx.getD d 0 < shape.getD d 0) :
    List.Forall₂ (· < ·) idx shape := by
  apply List.forall₂_iff_get.mpr
  refine ⟨hlen, ?_⟩
  intro i h1 h2
  have := h i h2
  rw [List.getD_eq_getElem _ _ h1, List.getD_eq_getElem _ _ h2] at this
  exact this

theorem nonzeroIndices_mem (m : NDArr) (idx : List ℕ) :
    idx ∈ nonzeroIndices m ↔ List.Forall₂ (· < ·) idx m.shape ∧ m.data idx ≠ 0 := by
  unfold nonzeroIndices
  rw [List.mem_filter, mem_indices]
  simp

/-! #### The fold of the per-dimension min/max update -/

theorem bb_fold_lengths (pts : List (List ℕ)) (n : ℕ) :
    ∀ acc : List ℕ × List ℕ, acc.1.length = n → acc.2.length = n →
      (∀ p ∈ pts, p.length = n) →
      (pts.foldl bbStep acc).1.length = n ∧ (pts.foldl bbStep acc).2.length = n := by
  induction pts with
  | nil => intro acc h1 h2 _; exact ⟨h1, h2⟩
  | cons p ps ih =>
    intro acc h1 h2 hall
    have hp : p.length = n := hall p (List.mem_cons_self p ps)
    apply ih (bbStep acc p)
    · simp [bbStep, List.length_zipWith, h1, hp]
    · simp [bbStep, List.length_zipWith, h2, hp]
    · intro q hq; exact hall q (List.mem_cons_of_mem p hq)

theorem bb_fold_bounds (pts : List (List ℕ)) (n : ℕ) :
    ∀ acc : List ℕ × List ℕ, acc.1.length = n → acc.2.length = n →
      (∀ p ∈ pts, p.length = n) → ∀ d, d < n →
      ((pts.foldl bbStep acc).1.getD d 0 ≤ acc.1.getD d 0 ∧
        acc.2.getD d 0 ≤ (pts.foldl bbStep acc).2.getD d 0) ∧
      (∀ p ∈ pts, (pts.foldl bbStep acc).1.getD d 0 ≤ p.getD d 0 ∧
        p.getD d 0 ≤ (pts.foldl bbStep acc).2.getD d 0) := by
  induction pts with
  | nil =>
    intro acc h1 h2 _ d hd
    exact ⟨⟨le_refl _, le_refl _⟩, by simp⟩
  | cons p ps ih =>
    intro acc h1 h2 hall d hd
    have hp : p.length = n := hall p (List.mem_cons_self p ps)
    have hs1 : (bbStep acc p).1.getD d 0 = min (acc.1.getD d 0) (p.getD d 0) :=
      getD_zipWith min acc.1 p d (by omega) (by omega) 0 0 0
    have hs2 : (bbStep acc p).2.getD d 0 = max (acc.2.getD d 0) (p.getD d 0) :=
      getD_zipWith max acc.2 p d (by omega) (by omega) 0 0 0
    have hl1 : (bbStep acc p).1.length = n := by simp [bbStep, List.length_zipWith, h1, hp]
    have hl2 : (bbStep acc p).2.length = n := by simp [bbStep, List.length_zipWith, h2, hp]
    have hrest := ih (bbStep acc p) hl1 hl2
      (fun q hq => hall q (List.mem_cons_of_mem p hq)) d hd
    refine ⟨⟨?_, ?_⟩, ?_⟩
    · exact le_trans hrest.1.1 (by rw [hs1]; exact min_le_left _ _)
    · exact le_trans (by rw [hs2]; exact le_max_left _ _) hrest.1.2
    · intro q hq
      rcases List.mem_cons.mp hq with rfl | hq

      · exact ⟨le_trans hrest.1.1 (by rw [hs1]; exact min_le_right _ _),
          le_trans (by rw [hs2]; exact le_max_right _ _) hrest.1.2⟩
      · exact hrest.2 q hq

theorem bb_fold_attain (pts : List (List ℕ)) (n : ℕ) :
    ∀ acc : List ℕ × List ℕ, acc.1.length = n → acc.2.length = n →
      (∀ p ∈ pts, p.length = n) → ∀ d, d < n →
      ((pts.foldl bbStep acc).1.getD d 0 = acc.1.getD d 0 ∨
        ∃ p ∈ pts, (pts.foldl bbStep acc).1.getD d 0 = p.getD d 0) ∧
      ((pts.foldl bbStep acc).2.getD d 0 = acc.2.getD d 0 ∨
        ∃ p ∈ pts, (pts.foldl bbStep acc).2.getD d 0 = p.getD d 0) := by
  induction pts with
  | nil =>
    intro acc _ _ _ d _
    exact ⟨Or.inl rfl, Or.inl rfl⟩
  | cons p ps ih =>
    intro acc h1 h2 hall d hd
    have hp : p.length = n := hall p (List.mem_cons_self p ps)
    have hs1 : (bbStep acc p).1.getD d 0 = min (acc.1.getD d 0) (p.getD d 0) :=
      getD_zipWith min acc.1 p d (by omega) (by omega) 0 0 0
    have hs2 : (bbStep acc p).2.getD d 0 = max (acc.2.getD d 0) (p.getD d 0) :=
      getD_zipWith max acc.2 p d (by omega) (by omega) 0 0 0
    have hl1 : (bbStep acc p).1.length = n := by simp [bbStep, List.length_zipWith, h1, hp]
    have hl2 : (bbStep acc p).2.length = n := by simp [bbStep, List.length_zipWith, h2, hp]
    have hrest := ih (bbStep acc p) hl1 hl2
      (fun q hq => hall q (List.mem_cons_of_mem p hq)) d hd
    simp only [List.foldl_cons]
    constructor
    · rcases hrest.1 with heq | ⟨q, hq, heq⟩
      · rw [heq, hs1]
        rcases min_cases (acc.1.getD d 0) (p.getD d 0) with ⟨hmin, _⟩ | ⟨hmin, _⟩
        · exact Or.inl hmin
        · exact Or.inr ⟨p, List.mem_cons_self p ps, hmin⟩
      · exact Or.inr ⟨q, List.mem_cons_of_mem p hq, heq⟩
    · rcases hrest.2 with heq | ⟨q, hq, heq⟩
      · rw [heq, hs2]
        rcases max_cases (acc.2.getD d 0) (p.getD d 0) with ⟨hmax, _⟩ | ⟨hmax, _⟩
        · exact Or.inl hmax
        · exact Or.inr ⟨p, List.mem_cons_self p ps, hmax⟩
      · exact Or.inr ⟨q, List.mem_cons_of_mem p hq, heq⟩

/-- All the facts needed about `bounding_box` on a 3-D mask with at least
one nonzero voxel: the box vectors have three coordinates, they bound every
nonzero position per axis, and each coordinate is attained by some nonzero
position. -/
theorem bounding_box_spec (m : NDArr) (h3 : m.shape.length = 3)
    (hne : nonzeroIndices m ≠ []) :
    (bounding_box m).1.length = 3 ∧ (bounding_box m).2.length = 3 ∧
    (∀ q ∈ nonzeroIndices m, ∀ d, d < 3 →
      (bounding_box m).1.getD d 0 ≤ q.getD d 0 ∧
      q.getD d 0 ≤ (bounding_box m).2.getD d 0) ∧
    (∀ d, d < 3 →
      (∃ q ∈ nonzeroIndices m, (bounding_box m).1.getD d 0 = q.getD d 0) ∧
      (∃ q ∈ nonzeroIndices m, (bounding_box m).2.getD d 0 = q.getD d 0)) := by
  have hlenall : ∀ p ∈ nonzeroIndices m, p.length = 3 := by
    intro p hp
    have := ((nonzeroIndices_mem m p).mp hp).1.length_eq
    omega
  obtain ⟨p0, rest, hpts⟩ : ∃ p0 rest, nonzeroIndices m = p0 :: rest := by
    cases hcase : nonzeroIndices m with
    | nil => exact absurd hcase hne
    | cons a b => exact ⟨a, b, rfl⟩
  have hbb : bounding_box m = (p0 :: rest).foldl bbStep (p0, p0) := by
    unfold bounding_box
    rw [hpts]
  have hp0 : p0.length = 3 := hlenall p0 (by rw [hpts]; exact List.mem_cons_self p0 rest)
  have hallc : ∀ p ∈ p0 :: rest, p.length = 3 := by
    intro p hp; exact hlenall p (by rw [hpts]; exact hp)
  have hlen := bb_fold_lengths (p0 :: rest) 3 (p0, p0) hp0 hp0 hallc
  refine ⟨by rw [hbb]; exact hlen.1, by rw [hbb]; exact hlen.2, ?_, ?_⟩
  · intro q hq d hd
    rw [hpts] at hq
    have := (bb_fold_bounds (p0 :: rest) 3 (p0, p0) hp0 hp0 hallc d hd).2 q hq
    rw [hbb]
    exact this
  · intro d hd
    have hat := bb_fold_attain (p0 :: rest) 3 (p0, p0) hp0 hp0 hallc d hd
    constructor
    · rcases hat.1 with heq | ⟨q, hq, heq⟩
      · exact ⟨p0, by rw [hpts]; exact List.mem_cons_self p0 rest, by rw [hbb]; exact heq⟩
      · exact ⟨q, by rw [hpts]; exact hq, by rw [hbb]; exact heq⟩
    · rcases hat.2 with heq | ⟨q, hq, heq⟩
      · exact ⟨p0, by rw [hpts]; exact List.mem_cons_self p0 rest, by rw [hbb]; exact heq⟩
      · exact ⟨q, by rw [hpts]; exact hq, by rw [hbb]; exact heq⟩

theorem getD3_zero (a b c : ℕ) : ([a, b, c] : List ℕ).getD 0 0 = a := rfl

theorem getD3_one (a b c : ℕ) : ([a, b, c] : List ℕ).getD 1 0 = b := rfl

theorem getD3_two (a b c : ℕ) : ([a, b, c] : List ℕ).getD 2 0 = c := rfl

theorem list_eq_three_getD (l : List ℕ) (h : l.length = 3) :
    l = [l.getD 0 0, l.getD 1 0, l.getD 2 0] := by
  obtain ⟨a, b, c, rfl⟩ := List.length_eq_three.mp h
  rfl

theorem crop_shape3 (vol : NDArr) (mins maxs : List ℕ) (h3 : vol.shape.length = 3)
    (hm : ∀ d, d < 3 → mins.getD d 0 ≤ maxs.getD d 0 ∧ maxs.getD d 0 < vol.shape.getD d 0) :
    (crop vol mins maxs).shape = [maxs.getD 0 0 + 1 - mins.getD 0 0,
      maxs.getD 1 0 + 1 - mins.getD 1 0, maxs.getD 2 0 + 1 - mins.getD 2 0] := by
  have h0 := hm 0 (by omega)
  have h1 := hm 1 (by omega)
  have h2 := hm 2 (by omega)
  have hd : vol.shape.drop 3 = [] := List.drop_eq_nil_of_le (by omega)
  simp only [crop, cropStart, cropStop]
  rw [hd, List.append_nil]
  rw [show min (maxs.getD 0 0 + 1) (vol.shape.getD 0 0)
      - min (mins.getD 0 0) (vol.shape.getD 0 0) = maxs.getD 0 0 + 1 - mins.getD 0 0
    from by omega]
  rw [show min (maxs.getD 1 0 + 1) (vol.shape.getD 1 0)
      - min (mins.getD 1 0) (vol.shape.getD 1 0) = maxs.getD 1 0 + 1 - mins.getD 1 0
    from by omega]
  rw [show min (maxs.getD 2 0 + 1) (vol.shape.getD 2 0)
      - min (mins.getD 2 0) (vol.shape.getD 2 0) = maxs.getD 2 0 + 1 - mins.getD 2 0
    from by omega]

theorem crop_data3 (vol : NDArr) (mins maxs : List ℕ)
    (hm : ∀ d, d < 3 → mins.getD d 0 ≤ vol.shape.getD d 0) (idx : List ℕ) :
    (crop vol mins maxs).data idx
      = vol.data ([mins.getD 0 0 + idx.getD 0 0, mins.getD 1 0 + idx.getD 1 0,
          mins.getD 2 0 + idx.getD 2 0] ++ idx.drop 3) := by
  have h0 := hm 0 (by omega)
  have h1 := hm 1 (by omega)
  have h2 := hm 2 (by omega)
  simp only [crop, cropStart]
  rw [show min (mins.getD 0 0) (vol.shape.getD 0 0) = mins.getD 0 0 from by omega]
  rw [show min (mins.getD 1 0) (vol.shape.getD 1 0) = mins.getD 1 0 from by omega]
  rw [show min (mins.getD 2 0) (vol.shape.getD 2 0) = mins.getD 2 0 from by omega]

/-- C9: for a 3-D mask with at least one nonzero voxel, cropping the mask
to its own bounding box and recomputing the bounding box yields the full
extent of the cropped array: all-zero mins and maxs equal to the cropped
shape minus one on every axis. -/
theorem bounding_box_crop_full_extent (m : NDArr) (h3 : m.shape.length = 3)
    (hnz : ∃ q ∈ indices m.shape, m.data q ≠ 0) :
    (bounding_box (crop m (bounding_box m).1 (bounding_box m).2)).1 = [0, 0, 0] ∧
    (bounding_box (crop m (bounding_box m).1 (bounding_box m).2)).2
      = (crop m (bounding_box m).1 (bounding_box m).2).shape.map (fun s => s - 1) := by
  obtain ⟨q0, hq0mem, hq0nz⟩ := hnz
  have hq0 : q0 ∈ nonzeroIndices m :=
    (nonzeroIndices_mem m q0).mpr ⟨(mem_indices m.shape q0).mp hq0mem, hq0nz⟩
  have hne : nonzeroIndices m ≠ [] := List.ne_nil_of_mem hq0
  obtain ⟨hl1, hl2, hbound, hattain⟩ := bounding_box_spec m h3 hne
  set mins := (bounding_box m).1 with hminsdef
  set maxs := (bounding_box m).2 with hmaxsdef
  have hmm : ∀ d, d < 3 →
      mins.getD d 0 ≤ maxs.getD d 0 ∧ maxs.getD d 0 < m.shape.getD d 0 := by
    intro d hd
    have hb := hbound q0 hq0 d hd
    obtain ⟨q, hq, heq⟩ := (hattain d hd).2
    have hqlt := (forall₂_lt_getD ((nonzeroIndices_mem m q).mp hq).1).2 d (by omega)
    exact ⟨le_trans hb.1 hb.2, by rw [heq]; exact hqlt⟩
  set c := crop m mins maxs with hcdef
  have hcs : c.shape = [maxs.getD 0 0 + 1 - mins.getD 0 0, maxs.getD 1 0 + 1 - mins.getD 1 0,
      maxs.getD 2 0 + 1 - mins.getD 2 0] := crop_shape3 m mins maxs h3 hmm
  have hcs3 : c.shape.length = 3 := by rw [hcs]; rfl
  have hfwd : ∀ q ∈ nonzeroIndices m,
      [q.getD 0 0 - mins.getD 0 0, q.getD 1 0 - mins.getD 1 0, q.getD 2 0 - mins.getD 2 0]
        ∈ nonzeroIndices c := by
    intro q hq
    have hmemq := (nonzeroIndices_mem m q).mp hq
    have hql : q.length = 3 := by have := hmemq.1.length_eq; omega
    have hbq := hbound q hq
    apply (nonzeroIndices_mem c _).mpr
    constructor
    · apply forall₂_lt_of_getD
      · rw [hcs]; rfl
      · intro d hd
        rw [hcs3] at hd
        rw [hcs]
        interval_cases d
        · rw [getD3_zero, getD3_zero]
          have := hbq 0 (by omega)
          have := hmm 0 (by omega)
          omega
        · rw [getD3_one, getD3_one]
          have := hbq 1 (by omega)
          have := hmm 1 (by omega)
          omega
        · rw [getD3_two, getD3_two]
          have := hbq 2 (by omega)
          have := hmm 2 (by omega)
          omega
    · rw [crop_data3 m mins maxs (fun d hd => by have := hmm d hd; omega) _]
      rw [show ([q.getD 0 0 - mins.getD 0 0, q.getD 1 0 - mins.getD 1 0,
          q.getD 2 0 - mins.getD 2 0] : List ℕ).drop 3 = [] from rfl, List.append_nil]
      rw [getD3_zero, getD3_one, getD3_two]
      rw [show mins.getD 0 0 + (q.getD 0 0 - mins.getD 0 0) = q.getD 0 0 from by
        have := (hbq 0 (by omega)).1; omega]
      rw [show mins.getD 1 0 + (q.getD 1 0 - mins.getD 1 0) = q.getD 1 0 from by
        have := (hbq 1 (by omega)).1; omega]
      rw [show mins.getD 2 0 + (q.getD 2 0 - mins.getD 2 0) = q.getD 2 0 from by
        have := (hbq 2 (by omega)).1; omega]
      rw [← list_eq_three_getD q hql]
      exact hmemq.2
  have hbwd : ∀ p ∈ nonzeroIndices c, ∀ d, d < 3 →
      p.getD d 0 ≤ maxs.getD d 0 - mins.getD d 0 := by
    intro p hp d hd
    have hplt := (forall₂_lt_getD ((nonzeroIndices_mem c p).mp hp).1).2 d (by omega)
    rw [hcs] at hplt
    have hmmd := hmm d hd
    interval_cases d
    · rw [getD3_zero] at hplt; omega
    · rw [getD3_one] at hplt; omega
    · rw [getD3_two] at hplt; omega
  have hnec : nonzeroIndices c ≠ [] := List.ne_nil_of_mem (hfwd q0 hq0)
  obtain ⟨hcl1, hcl2, hcbound, hcattain⟩ := bounding_box_spec c hcs3 hnec
  have hminzero : ∀ d, d < 3 → (bounding_box c).1.getD d 0 = 0 := by
    intro d hd
    obtain ⟨q, hq, heq⟩ := (hattain d hd).1
    have himg := hfwd q hq
    have hble := (hcbound _ himg d hd).1
    have himgd : ([q.getD 0 0 - mins.getD 0 0, q.getD 1 0 - mins.getD 1 0,
        q.getD 2 0 - mins.getD 2 0] : List ℕ).getD d 0 = 0 := by
      interval_cases d
      · rw [getD3_zero]; omega
      · rw [getD3_one]; omega
      · rw [getD3_two]; omega
    omega
  have hmaxval : ∀ d, d < 3 →
      (bounding_box c).2.getD d 0 = maxs.getD d 0 - mins.getD d 0 := by
    intro d hd
    obtain ⟨p, hp, heq⟩ := (hcattain d hd).2
    have hle : (bounding_box c).2.getD d 0 ≤ maxs.getD d 0 - mins.getD d 0 := by
      rw [heq]
      exact hbwd p hp d hd
    obtain ⟨q, hq, heqq⟩ := (hattain d hd).2
    have himg := hfwd q hq
    have hge := (hcbound _ himg d hd).2
    have himgd : ([q.getD 0 0 - mins.getD 0 0, q.getD 1 0 - mins.getD 1 0,
        q.getD 2 0 - mins.getD 2 0] : List ℕ).getD d 0 = maxs.getD d 0 - mins.getD d 0 := by
      interval_cases d
      · rw [getD3_zero]; omega
      · rw [getD3_one]; omega
      · rw [getD3_two]; omega
    omega
  constructor
  · rw [list_eq_three_getD (bounding_box c).1 hcl1]
    rw [hminzero 0 (by omega), hminzero 1 (by omega), hminzero 2 (by omega)]
  · rw [list_eq_three_getD (bounding_box c).2 hcl2]
    rw [hmaxval 0 (by omega), hmaxval 1 (by omega), hmaxval 2 (by omega), hcs]
    have e0 : maxs.getD 0 0 - mins.getD 0 0 = maxs.getD 0 0 + 1 - mins.getD 0 0 - 1 := by
      have := hmm 0 (by omega); omega
    have e1 : maxs.getD 1 0 - mins.getD 1 0 = maxs.getD 1 0 + 1 - mins.getD 1 0 - 1 := by
      have := hmm 1 (by omega); omega
    have e2 : maxs.getD 2 0 - mins.getD 2 0 = maxs.getD 2 0 + 1 - mins.getD 2 0 - 1 := by
      have := hmm 2 (by omega); omega
    rw [e0, e1, e2]
    rfl

/-- Witness for C9 on a concrete 3 x 3 x 3 mask with two nonzero voxels. -/
theorem bounding_box_crop_full_extent_witness :
    (bounding_box (crop c9mask (bounding_box c9mask).1 (bounding_box c9mask).2)).1
        = [0, 0, 0] ∧
    (bounding_box (crop c9mask (bounding_box c9mask).1 (bounding_box c9mask).2)).2
        = (crop c9mask (bounding_box c9mask).1 (bounding_box c9mask).2).shape.map
            (fun s => s - 1) :=
  bounding_box_crop_full_extent c9mask rfl
    ⟨[1, 1, 2], by decide, by decide⟩

